import Mathlib

/-!
Verification of the Markdown-to-Notion-block converter.

The development shallowly embeds the JavaScript source:
* `parseMarkdownWithMath` / `scanLines` / `stepScan` — the block-level line
  scanner of `netlify/functions/upload-notion.js` (math blocks, code fences,
  dividers, headings, lists, quotes, paragraphs);
* `processRichText` — the inline tokenizer of the same file (splits a line on
  single-dollar inline math, keeping non-empty fragments);
* `processTextFormatting` and `Rich.processRichText` — the richer inline
  tokenizer variant (bold / italic / inline-code / link span detection with
  greedy leftmost non-overlapping acceptance, plus placeholder-based math
  protection and restoration).

Strings are modelled as `List Char`; JavaScript string primitives
(`trim`, `startsWith`, `endsWith`, `split`, `substring`, regexp matching for
the concrete patterns appearing in the source) are given explicit executable
definitions.  Regexp global matching is embedded by a leftmost-match scan:
every pattern in the source has the shape `open class* close` where the
closing delimiter's first character is excluded from the character class, so
the lazy (or greedy) quantifier semantics collapse to "take the maximal class
run, then require the closing delimiter" — this is used to justify the
deterministic matchers below.
-/

/-- Convert a Lean string literal to the `List Char` model. -/
def str (s : String) : List Char := s.data

/-- The whitespace class used by JavaScript `trim` and `\s` (ASCII part plus
NBSP and ZWNBSP; lines are produced by splitting on `'\n'`, so the remaining
Unicode space characters never arise in practice). -/
def isJsSpace (c : Char) : Bool :=
  c == ' ' || c == '\t' || c == '\n' || c == '\r' || c == '\x0b' ||
  c == '\x0c' || c == ' ' || c == '﻿'

/-- JavaScript `String.prototype.trim`. -/
def trimL (l : List Char) : List Char :=
  ((l.dropWhile isJsSpace).reverse.dropWhile isJsSpace).reverse

/-- Is the first list a prefix of the second? -/
def prefixOfCh : List Char → List Char → Bool
  | [], _ => true
  | _ :: _, [] => false
  | c :: cs, d :: ds => c == d && prefixOfCh cs ds

/-- JavaScript `s.startsWith(pre)`. -/
def jsStartsWith (s pre : List Char) : Bool := prefixOfCh pre s

/-- JavaScript `s.endsWith(suf)`. -/
def jsEndsWith (s suf : List Char) : Bool := prefixOfCh suf.reverse s.reverse

/-- Character at an index, `none` past the end. -/
def chAt (s : List Char) (p : Nat) : Option Char := s.get? p

/-- Does the literal `lit` occur at position `p` of `s`? -/
def litAt (s : List Char) (p : Nat) (lit : List Char) : Bool :=
  prefixOfCh lit (s.drop p)

/-- JavaScript `s.includes(sub)`. -/
def hasSub (sub s : List Char) : Bool :=
  prefixOfCh sub s ||
    match s with
    | [] => false
    | _ :: cs => hasSub sub cs

/-- JavaScript `s.split('\n')`. -/
def splitNL : List Char → List (List Char)
  | [] => [[]]
  | c :: cs =>
    if c = '\n' then [] :: splitNL cs
    else
      match splitNL cs with
      | [] => [[c]]
      | l :: ls => (c :: l) :: ls

/-- JavaScript `lines.join('\n')`. -/
def joinNL (xs : List (List Char)) : List Char := List.intercalate ['\n'] xs

/-- The test `/^\d+\.\s/.test(line)` of the ordered-list branch. -/
def numTest (t : List Char) : Bool :=
  !(t.takeWhile Char.isDigit).isEmpty &&
    (match t.dropWhile Char.isDigit with
     | '.' :: c :: _ => isJsSpace c
     | _ => false)

/-- Kinds of inline formatting spans detected by `processTextFormatting`. -/
inductive FmtKind where
  | bold
  | italic
  | codeK
  | link
  deriving DecidableEq

/-- A rich-text segment (one element of a Notion `rich_text` array). -/
inductive Seg where
  | text (content : List Char)
  | annotated (content : List Char) (kind : FmtKind)
  | linkSeg (content url : List Char)
  | equationSeg (expr : List Char)
  deriving DecidableEq

/-- A Notion block as produced by `parseMarkdownWithMath`. -/
inductive Block where
  | equation (expr : List Char)
  | code (content language : List Char)
  | divider
  | heading (level : Nat) (rich : List Seg)
  | bulletItem (rich : List Seg)
  | numberedItem (rich : List Seg)
  | quoteBlock (rich : List Seg)
  | paragraph (rich : List Seg)
  deriving DecidableEq

/-- The construct selected for a (trimmed) line by the scanner's
`if`/`else if` chain. -/
inductive Construct where
  | math
  | codeB
  | divider
  | heading
  | bullet
  | numbered
  | quoteB
  | para
  | blank
  deriving DecidableEq

/-- The result of one regexp match: end position of the whole match, the text
the consumer uses (capture group or whole match, depending on the pattern),
and for links the url capture. -/
structure RawMatch where
  re : Nat
  content : List Char
  url : Option (List Char)
  deriving DecidableEq

/-- Match of `/\*\*([^*\n]+?)\*\*/` at position `p` (bold). -/
def boldAt (s : List Char) (p : Nat) : Option RawMatch :=
  if litAt s p (str "**") = true then
    let run := (s.drop (p + 2)).takeWhile (fun c => !(c == '*' || c == '\n'))
    if 1 ≤ run.length ∧ litAt s (p + 2 + run.length) (str "**") = true then
      some ⟨p + 4 + run.length, run, none⟩
    else none
  else none

/-- Match of `/(?<!\*)\*([^*\n]+?)\*(?!\*)/` at position `p` (italic).
The lookbehind and lookahead assertions consume nothing. -/
def italicAt (s : List Char) (p : Nat) : Option RawMatch :=
  if (p = 0 ∨ ¬ chAt s (p - 1) = some '*') ∧ chAt s p = some '*' then
    let run := (s.drop (p + 1)).takeWhile (fun c => !(c == '*' || c == '\n'))
    if 1 ≤ run.length ∧ chAt s (p + 1 + run.length) = some '*' ∧
        ¬ chAt s (p + 2 + run.length) = some '*' then
      some ⟨p + 2 + run.length, run, none⟩
    else none
  else none

/-- Match of `` /`([^`\n]+?)`/ `` at position `p` (inline code). -/
def codeAt (s : List Char) (p : Nat) : Option RawMatch :=
  if chAt s p = some '`' then
    let run := (s.drop (p + 1)).takeWhile (fun c => !(c == '`' || c == '\n'))
    if 1 ≤ run.length ∧ chAt s (p + 1 + run.length) = some '`' then
      some ⟨p + 2 + run.length, run, none⟩
    else none
  else none

/-- Match of `/\[([^\]]+?)\]\(([^)\n]+?)\)/` at position `p` (link). -/
def linkAt (s : List Char) (p : Nat) : Option RawMatch :=
  if chAt s p = some '[' then
    let c1 := (s.drop (p + 1)).takeWhile (fun c => !(c == ']'))
    if 1 ≤ c1.length ∧ litAt s (p + 1 + c1.length) (str "](") = true then
      let q := p + 3 + c1.length
      let c2 := (s.drop q).takeWhile (fun c => !(c == ')' || c == '\n'))
      if 1 ≤ c2.length ∧ chAt s (q + c2.length) = some ')' then
        some ⟨q + c2.length + 1, c1, some c2⟩
      else none
    else none
  else none

/-- Match of `/\$([^$\n]+)\$/` at position `p` (inline math, the placeholder
substitution pattern of the rich tokenizer); `content` is the capture. -/
def mathInlineAt (s : List Char) (p : Nat) : Option RawMatch :=
  if chAt s p = some '$' then
    let run := (s.drop (p + 1)).takeWhile (fun c => !(c == '$' || c == '\n'))
    if 1 ≤ run.length ∧ chAt s (p + 1 + run.length) = some '$' then
      some ⟨p + 2 + run.length, run, none⟩
    else none
  else none

/-- Match of `/\$[^$\r\n]*?\$/` at position `p` (the splitting pattern of the
simple tokenizer); `content` is the whole match including the dollars. -/
def simpleSplitAt (s : List Char) (p : Nat) : Option RawMatch :=
  if chAt s p = some '$' then
    let run := (s.drop (p + 1)).takeWhile
      (fun c => !(c == '$' || c == '\r' || c == '\n'))
    if chAt s (p + 1 + run.length) = some '$' then
      some ⟨p + 2 + run.length, '$' :: (run ++ ['$']), none⟩
    else none
  else none

/-- Match of `/__MATH_\d+__/` at position `p` (placeholder restoration
pattern); `content` is the whole match. -/
def placeholderAt (s : List Char) (p : Nat) : Option RawMatch :=
  if litAt s p (str "__MATH_") = true then
    let run := (s.drop (p + 7)).takeWhile Char.isDigit
    if 1 ≤ run.length ∧ litAt s (p + 7 + run.length) (str "__") = true then
      some ⟨p + 9 + run.length, str "__MATH_" ++ run ++ str "__", none⟩
    else none
  else none

/-- Leftmost match at a position `≥ p` (the forward scan a JavaScript regexp
engine performs from `lastIndex`). -/
def findFrom (mAt : Nat → Option RawMatch) : Nat → Nat → Option (Nat × RawMatch)
  | 0, _ => none
  | fuel + 1, p =>
    match mAt p with
    | some m => some (p, m)
    | none => findFrom mAt fuel (p + 1)

/-- All matches of a global regexp in order (`exec` loop: each search starts
at the end of the previous match).  Every pattern in the source matches at
least two characters, so `s.length + 1` rounds of fuel always suffice. -/
def jsMatchAll (mAt : Nat → Option RawMatch) : Nat → Nat → List (Nat × RawMatch)
  | 0, _ => []
  | fuel + 1, p =>
    match findFrom mAt (fuel + 1) p with
    | none => []
    | some (q, m) => (q, m) :: jsMatchAll mAt fuel m.re

/-- The flat list produced by `String.split` with a capturing regexp: the text
before each match, the match itself, …, and the trailing text. -/
def piecesFrom (t : List Char) (lastEnd : Nat) :
    List (Nat × RawMatch) → List (List Char)
  | [] => [t.drop lastEnd]
  | (p, m) :: rest =>
    (t.drop lastEnd).take (p - lastEnd) :: m.content :: piecesFrom t m.re rest

/-- Body of the simple tokenizer's loop over `text.split(/(\$[^$\r\n]*?\$)/g)`:
segments at even indices are plain text (skipped when empty), segments at odd
indices are `$...$` matches turned into equations when the trimmed inner
expression is non-empty. -/
def simpleLoop : List (List Char) → Bool → List Seg
  | [], _ => []
  | seg :: rest, even =>
    (if even then
      if seg ≠ [] then [Seg.text seg] else []
     else
      if jsStartsWith seg (str "$") = true ∧ jsEndsWith seg (str "$") = true then
        let expr := trimL (seg.drop 1).dropLast
        if expr ≠ [] then [Seg.equationSeg expr] else []
      else [Seg.text seg]) ++ simpleLoop rest (!even)

/-- `processRichText` of `netlify/functions/upload-notion.js`: split on inline
`$...$` math and keep the non-empty pieces. -/
def processRichText (t : List Char) : List Seg :=
  simpleLoop (piecesFrom t 0 (jsMatchAll (simpleSplitAt t) (t.length + 1) 0)) true

/-- One pooled formatting-span match of `processTextFormatting`:
start, end, capture, url capture (links only), and the producing pattern. -/
structure FMatch where
  ms : Nat
  me : Nat
  content : List Char
  url : Option (List Char)
  kind : FmtKind
  deriving DecidableEq

/-- The matcher belonging to each pattern of the `patterns` array. -/
def kindMatcher (k : FmtKind) (t : List Char) : Nat → Option RawMatch :=
  match k with
  | FmtKind.bold => boldAt t
  | FmtKind.italic => italicAt t
  | FmtKind.codeK => codeAt t
  | FmtKind.link => linkAt t

/-- All matches of the four span patterns, pooled in the order of the
`patterns` array (bold, italic, code, link). -/
def formatMatches (t : List Char) : List FMatch :=
  let grab := fun (k : FmtKind) =>
    (jsMatchAll (kindMatcher k t) (t.length + 1) 0).map
      (fun pm => FMatch.mk pm.1 pm.2.re pm.2.content pm.2.url k)
  grab FmtKind.bold ++ grab FmtKind.italic ++ grab FmtKind.codeK ++
    grab FmtKind.link

/-- Stable insertion into a list sorted by start offset. -/
def insertByStart (m : FMatch) : List FMatch → List FMatch
  | [] => [m]
  | x :: xs => if m.ms ≤ x.ms then m :: x :: xs else x :: insertByStart m xs

/-- `matches.sort((a, b) => a.start - b.start)` (stable; the four patterns can
never match at the same start offset, so any sort agrees). -/
def sortByStart : List FMatch → List FMatch
  | [] => []
  | x :: xs => insertByStart x (sortByStart xs)

/-- The overlap-removal loop: a candidate is kept only when its span meets no
already-accepted span. -/
def acceptGo (acc : List FMatch) : List FMatch → List FMatch
  | [] => acc
  | m :: rest =>
    if acc.any (fun ex => decide (m.ms < ex.me) && decide (m.me > ex.ms)) then
      acceptGo acc rest
    else acceptGo (acc ++ [m]) rest

/-- The rich-text building loop: plain-text gaps between accepted matches,
then the formatted segment for each match, then the trailing gap. -/
def buildSegs (t : List Char) : List FMatch → Nat → List Seg
  | [], lastEnd =>
    if lastEnd < t.length then
      let r := t.drop lastEnd
      if r ≠ [] then [Seg.text r] else []
    else []
  | m :: rest, lastEnd =>
    (if lastEnd < m.ms then
      let b := (t.drop lastEnd).take (m.ms - lastEnd)
      if b ≠ [] then [Seg.text b] else []
     else []) ++
    ((match m.kind with
      | FmtKind.link => Seg.linkSeg m.content (m.url.getD [])
      | FmtKind.bold => Seg.annotated m.content FmtKind.bold
      | FmtKind.italic => Seg.annotated m.content FmtKind.italic
      | FmtKind.codeK => Seg.annotated m.content FmtKind.codeK) ::
      buildSegs t rest m.me)

/-- `processTextFormatting` of the rich tokenizer variant. -/
def processTextFormatting (t : List Char) : List Seg :=
  let vm := acceptGo [] (sortByStart (formatMatches t))
  let parts := buildSegs t vm 0
  if parts = [] ∧ trimL t ≠ [] then [Seg.text t] else parts

/-- Decimal digits of a number, as the characters of its decimal numeral. -/
def natDigits (n : Nat) : List Char := (Nat.repr n).data

/-- Rebuild the text with each inline-math match replaced by its
`__MATH_<n>__` placeholder, collecting the trimmed expressions. -/
def rebuildTemp (t : List Char) (lastEnd idx : Nat) :
    List (Nat × RawMatch) → List Char × List (List Char)
  | [] => (t.drop lastEnd, [])
  | (p, m) :: rest =>
    let pr := rebuildTemp t m.re (idx + 1) rest
    ((t.drop lastEnd).take (p - lastEnd) ++
       (str "__MATH_" ++ natDigits idx ++ str "__") ++ pr.1,
     trimL m.content :: pr.2)

/-- The placeholder-substitution pass:
`text.replace(/\$([^$\n]+)\$/g, ...)` with a running index. -/
def mathReplace (t : List Char) : List Char × List (List Char) :=
  rebuildTemp t 0 0 (jsMatchAll (mathInlineAt t) (t.length + 1) 0)

/-- `segment.match(/\d+/)`: the first maximal digit run, if any. -/
def firstDigitRun : List Char → Option (List Char)
  | [] => none
  | c :: cs =>
    if c.isDigit then some ((c :: cs).takeWhile Char.isDigit)
    else firstDigitRun cs

/-- `parseInt` on a digit run. -/
def digitsToNat (ds : List Char) : Nat :=
  ds.foldl (fun a c => a * 10 + (c.toNat - '0'.toNat)) 0

/-- The restoration loop over the pieces of
`content.split(/(__MATH_\d+__)/)`.  A piece shaped like a placeholder is
looked up (skipped when the recorded expression is empty or the index is out
of range); `segment.match(/\d+/)[0]` in the source throws when the piece has
no digit, which is modelled as `Except.error`.  Other non-empty pieces keep
the annotations of the enclosing part. -/
def restoreSegs (phs : List (List Char)) (ann : Option FmtKind) :
    List (List Char) → Except Unit (List Seg)
  | [] => Except.ok []
  | seg :: rest =>
    if jsStartsWith seg (str "__MATH_") = true ∧
        jsEndsWith seg (str "__") = true then
      match firstDigitRun seg with
      | none => Except.error ()
      | some ds =>
        match restoreSegs phs ann rest with
        | Except.error er => Except.error er
        | Except.ok tl =>
          match phs.get? (digitsToNat ds) with
          | some ex => if ex ≠ [] then Except.ok (Seg.equationSeg ex :: tl)
                       else Except.ok tl
          | none => Except.ok tl
    else if seg ≠ [] then
      match restoreSegs phs ann rest with
      | Except.error er => Except.error er
      | Except.ok tl =>
        Except.ok ((match ann with
                    | some k => Seg.annotated seg k
                    | none => Seg.text seg) :: tl)
    else restoreSegs phs ann rest

/-- The annotations object carried by a part (`part.annotations || {}`). -/
def partAnn : Seg → Option FmtKind
  | Seg.annotated _ k => some k
  | _ => none

/-- The `text.content` field of a part. -/
def partContent : Seg → List Char
  | Seg.text c => c
  | Seg.annotated c _ => c
  | Seg.linkSeg c _ => c
  | Seg.equationSeg e => e

/-- Placeholder restoration for one part of the formatting pass: parts whose
content mentions `__MATH_` are re-split and restored (losing any link target,
as in the source), all others pass through unchanged. -/
def restorePart (phs : List (List Char)) (part : Seg) : Except Unit (List Seg) :=
  match part with
  | Seg.equationSeg e => Except.ok [Seg.equationSeg e]
  | p =>
    if hasSub (str "__MATH_") (partContent p) = true then
      restoreSegs phs (partAnn p)
        (piecesFrom (partContent p) 0
          (jsMatchAll (placeholderAt (partContent p))
            ((partContent p).length + 1) 0))
    else Except.ok [p]

/-- Restoration over all parts, concatenated in order. -/
def restoreAll (phs : List (List Char)) : List Seg → Except Unit (List Seg)
  | [] => Except.ok []
  | p :: ps =>
    match restorePart phs p with
    | Except.error er => Except.error er
    | Except.ok a =>
      match restoreAll phs ps with
      | Except.error er => Except.error er
      | Except.ok b => Except.ok (a ++ b)

namespace Rich

/-- `processRichText` of the rich tokenizer variant: protect inline math with
placeholders, run the formatting pass, then restore the equations. -/
def processRichText (t : List Char) : Except Unit (List Seg) :=
  let pr := mathReplace t
  restoreAll pr.2 (processTextFormatting pr.1)

end Rich

/-- The construct chosen for a trimmed line by the scanner's `if`/`else if`
chain, in source order: display math, code fence, divider, heading, bulleted
item, numbered item, quote, paragraph, blank. -/
def lineConstruct (t : List Char) : Construct :=
  if jsStartsWith t (str "$$") then Construct.math
  else if jsStartsWith t (str "```") then Construct.codeB
  else if t == str "---" || t == str "***" || t == str "___" then
    Construct.divider
  else if jsStartsWith t (str "#") then Construct.heading
  else if jsStartsWith t (str "- ") || jsStartsWith t (str "* ") then
    Construct.bullet
  else if numTest t then Construct.numbered
  else if jsStartsWith t (str "> ") then Construct.quoteB
  else if !t.isEmpty then Construct.para
  else Construct.blank

/-- `currentLine.lastIndexOf('$$')`: the greatest position where `"$$"`
occurs, if any. -/
def lastIndexOfDD : List Char → Option Nat
  | [] => none
  | c :: cs =>
    match lastIndexOfDD cs with
    | some p => some (p + 1)
    | none => if c = '$' ∧ cs.head? = some '$' then some 0 else none

/-- The inner loop of the multi-line display-math branch: raw lines are
accumulated until one whose trimmed form ends with `"$$"`; on that line the
trimmed text before the last `"$$"` is kept (when non-empty) and the line is
consumed.  Returns the accumulated rows and the remaining lines. -/
def consumeMath : List (List Char) → List (List Char) × List (List Char)
  | [] => ([], [])
  | x :: xs =>
    if jsEndsWith (trimL x) (str "$$") = true then
      let lp := trimL (x.take ((lastIndexOfDD x).getD 0))
      (if lp ≠ [] then [lp] else [], xs)
    else
      let pr := consumeMath xs
      (x :: pr.1, pr.2)

/-- The inner loop of the code-fence branch: raw lines are accumulated until
one whose trimmed form starts with ```` ``` ````; the closing line is
consumed but not included. -/
def consumeCode : List (List Char) → List (List Char) × List (List Char)
  | [] => ([], [])
  | x :: xs =>
    if jsStartsWith (trimL x) (str "```") = true then ([], xs)
    else
      let pr := consumeCode xs
      (x :: pr.1, pr.2)

/-- One iteration of the scanner's outer `while` loop: given the current line
and the following lines, the blocks emitted by this iteration and the lines
remaining after the final `i++`. -/
def stepScan (l : List Char) (ls : List (List Char)) :
    List Block × List (List Char) :=
  let t := trimL l
  match lineConstruct t with
  | Construct.math =>
    let firstLine := t.drop 2
    if jsEndsWith firstLine (str "$$") = true then
      let expr := trimL (firstLine.take (firstLine.length - 2))
      (if expr ≠ [] then [Block.equation expr] else [], ls)
    else
      let init := if trimL firstLine ≠ [] then [trimL firstLine] else []
      let pr := consumeMath ls
      let mc := init ++ pr.1
      (if mc ≠ [] then [Block.equation (trimL (joinNL mc))] else [], pr.2)
  | Construct.codeB =>
    let lang0 := trimL (t.drop 3)
    let lang := if lang0 = [] then str "plain text" else lang0
    let pr := consumeCode ls
    ([Block.code (joinNL pr.1) lang], pr.2)
  | Construct.divider => ([Block.divider], ls)
  | Construct.heading =>
    let level := t.length - (t.dropWhile (fun c => c == '#')).length
    let txt := (t.dropWhile (fun c => c == '#')).dropWhile isJsSpace
    ([Block.heading (if level = 1 then 1 else if level = 2 then 2 else 3)
        (processRichText txt)], ls)
  | Construct.bullet =>
    ([Block.bulletItem (processRichText ((t.drop 1).dropWhile isJsSpace))], ls)
  | Construct.numbered =>
    ([Block.numberedItem (processRichText
        (((t.dropWhile Char.isDigit).drop 1).dropWhile isJsSpace))], ls)
  | Construct.quoteB =>
    ([Block.quoteBlock (processRichText ((t.drop 1).dropWhile isJsSpace))], ls)
  | Construct.para => ([Block.paragraph (processRichText t)], ls)
  | Construct.blank => ([], ls)

/-- The scanner's outer `while (i < lines.length)` loop, with fuel counting
its iterations; `none` means the fuel ran out before the cursor reached the
end (which `scanner_terminates` rules out for fuel `lines.length`). -/
def scanFuel : Nat → List (List Char) → Option (List Block)
  | _, [] => some []
  | 0, _ :: _ => none
  | fuel + 1, l :: ls =>
    match scanFuel fuel (stepScan l ls).2 with
    | none => none
    | some bs => some ((stepScan l ls).1 ++ bs)

/-- Scan a list of lines into blocks. -/
def scanLines (lines : List (List Char)) : List Block :=
  (scanFuel lines.length lines).getD []

/-- `parseMarkdownWithMath` of `netlify/functions/upload-notion.js`. -/
def parseMarkdownWithMath (doc : List Char) : List Block :=
  scanLines (splitNL doc)

/-- First satisfied check of an ordered list of construct checks
(modelled from the spec's tie-break rule: "construct checks are evaluated in
the fixed order …; the first match wins per line"). -/
def firstSat : List (Construct × (List Char → Bool)) → List Char → Construct
  | [], _ => Construct.blank
  | (c, p) :: rest, t => if p t then c else firstSat rest t

/-- The spec's fixed order of construct checks:
math → code → divider → heading → list-bullet → list-number → quote →
paragraph. -/
def constructChecks : List (Construct × (List Char → Bool)) :=
  [(Construct.math, fun t => jsStartsWith t (str "$$")),
   (Construct.codeB, fun t => jsStartsWith t (str "```")),
   (Construct.divider, fun t => t == str "---" || t == str "***" || t == str "___"),
   (Construct.heading, fun t => jsStartsWith t (str "#")),
   (Construct.bullet, fun t => jsStartsWith t (str "- ") || jsStartsWith t (str "* ")),
   (Construct.numbered, numTest),
   (Construct.quoteB, fun t => jsStartsWith t (str "> ")),
   (Construct.para, fun t => !t.isEmpty)]

/-- The construct the spec's ordered-check list assigns to a trimmed line. -/
def firstMatchConstruct (t : List Char) : Construct :=
  firstSat constructChecks t

/-- A line with no construct marker: its trimmed form triggers none of the
seven non-paragraph checks. -/
def plainLine (l : List Char) : Bool :=
  !jsStartsWith (trimL l) (str "$$") &&
  !jsStartsWith (trimL l) (str "```") &&
  !(trimL l == str "---" || trimL l == str "***" || trimL l == str "___") &&
  !jsStartsWith (trimL l) (str "#") &&
  !(jsStartsWith (trimL l) (str "- ") || jsStartsWith (trimL l) (str "* ")) &&
  !numTest (trimL l) &&
  !jsStartsWith (trimL l) (str "> ")

/-- The number of leading `'#'` characters of a trimmed line. -/
def hashCount (t : List Char) : Nat :=
  (t.takeWhile (fun c => c == '#')).length

/-- The 1/2/3 heading-level mapping: any count of 3 or more maps to 3. -/
def hashClamp (c : Nat) : Nat :=
  if c = 1 then 1 else if c = 2 then 2 else 3

/-- The language of a code fence per the spec: the remainder of the (trimmed)
opening line after the ```` ``` ```` marker, trimmed, defaulting to
`"plain text"` when empty. -/
def langSpec (t : List Char) : List Char :=
  let r := trimL (t.drop 3)
  if r = [] then str "plain text" else r

/-- A rich-text segment is non-empty: non-empty content for text-bearing
segments, non-empty expression for equation segments. -/
def segNonEmpty : Seg → Prop
  | Seg.text c => c ≠ []
  | Seg.annotated c _ => c ≠ []
  | Seg.linkSeg c _ => c ≠ []
  | Seg.equationSeg e => e ≠ []

theorem consumeMath_rest_le (xs : List (List Char)) :
    (consumeMath xs).2.length ≤ xs.length := by
  induction xs with
  | nil => simp [consumeMath]
  | cons x xs ih =>
    simp only [consumeMath]
    split
    · simp
    · simpa using Nat.le_succ_of_le ih

theorem consumeCode_rest_le (xs : List (List Char)) :
    (consumeCode xs).2.length ≤ xs.length := by
  induction xs with
  | nil => simp [consumeCode]
  | cons x xs ih =>
    simp only [consumeCode]
    split
    · simp
    · simpa using Nat.le_succ_of_le ih

theorem stepScan_rest_le (l : List Char) (ls : List (List Char)) :
    (stepScan l ls).2.length ≤ ls.length := by
  unfold stepScan
  dsimp only
  split
  · split
    · simp
    · simpa using consumeMath_rest_le ls
  · simpa using consumeCode_rest_le ls
  · simp
  · simp
  · simp
  · simp
  · simp
  · simp
  · simp

theorem scanFuel_succ : ∀ (f : Nat) (lines : List (List Char)),
    lines.length ≤ f → scanFuel (f + 1) lines = scanFuel f lines := by
  intro f
  induction f with
  | zero =>
    intro lines h
    have : lines = [] := List.length_eq_zero.mp (Nat.le_zero.mp h)
    subst this; rfl
  | succ f ih =>
    intro lines h
    cases lines with
    | nil => rfl
    | cons l ls =>
      have hls : ls.length ≤ f := by simpa using h
      have hr : (stepScan l ls).2.length ≤ f :=
        le_trans (stepScan_rest_le l ls) hls
      show scanFuel (f + 1 + 1) (l :: ls) = scanFuel (f + 1) (l :: ls)
      simp only [scanFuel]
      rw [ih _ hr]

theorem scanFuel_agree : ∀ (f : Nat) (lines : List (List Char)),
    lines.length ≤ f → scanFuel f lines = scanFuel lines.length lines := by
  intro f
  induction f with
  | zero =>
    intro lines h
    have : lines = [] := List.length_eq_zero.mp (Nat.le_zero.mp h)
    subst this; rfl
  | succ f ih =>
    intro lines h
    rcases Nat.lt_or_ge lines.length (f + 1) with hlt | hge
    · have hle : lines.length ≤ f := Nat.lt_succ_iff.mp hlt
      rw [scanFuel_succ f lines hle, ih lines hle]
    · have heq : lines.length = f + 1 := le_antisymm h hge
      rw [heq]

theorem scanFuel_isSome : ∀ (n : Nat) (lines : List (List Char)),
    lines.length ≤ n → ∃ bs, scanFuel lines.length lines = some bs := by
  intro n
  induction n with
  | zero =>
    intro lines h
    have : lines = [] := List.length_eq_zero.mp (Nat.le_zero.mp h)
    subst this; exact ⟨[], rfl⟩
  | succ n ih =>
    intro lines h
    cases lines with
    | nil => exact ⟨[], rfl⟩
    | cons l ls =>
      have hls : ls.length ≤ n := by simpa using h
      have hr : (stepScan l ls).2.length ≤ n :=
        le_trans (stepScan_rest_le l ls) hls
      obtain ⟨bs, hbs⟩ := ih _ hr
      refine ⟨(stepScan l ls).1 ++ bs, ?_⟩
      show scanFuel (ls.length + 1) (l :: ls) = _
      simp only [scanFuel]
      rw [scanFuel_agree ls.length (stepScan l ls).2 (stepScan_rest_le l ls),
        hbs]

theorem scanFuel_eq_some (lines : List (List Char)) :
    scanFuel lines.length lines = some (scanLines lines) := by
  obtain ⟨bs, hbs⟩ := scanFuel_isSome lines.length lines le_rfl
  rw [scanLines, hbs]; rfl

theorem scanLines_cons (l : List Char) (ls : List (List Char)) :
    scanLines (l :: ls) = (stepScan l ls).1 ++ scanLines (stepScan l ls).2 := by
  show (scanFuel (l :: ls).length (l :: ls)).getD [] = _
  have hlen : (l :: ls).length = ls.length + 1 := rfl
  rw [hlen]
  simp only [scanFuel]
  rw [scanFuel_agree ls.length (stepScan l ls).2 (stepScan_rest_le l ls),
    scanFuel_eq_some ((stepScan l ls).2)]
  rfl

/-- Claim C4: for the three-line document `"$$\nE=mc^2\n$$"`, `scan` yields
exactly one `Equation` block with expression `"E=mc^2"`; the second conjunct
exercises the same branch with a non-empty remainder of the opening line as
the first content row and a closing line carrying text before the `$$`. -/
theorem display_math_block :
    parseMarkdownWithMath (str "$$\nE=mc^2\n$$") =
      [Block.equation (str "E=mc^2")] ∧
    parseMarkdownWithMath (str "$$a\nb\nc$$") =
      [Block.equation (str "a\nb\nc")] :=
  ⟨rfl, rfl⟩

/-- Claim C6: the block scanner evaluates construct checks in the fixed order
math → code → divider → heading → list-bullet → list-number → quote →
paragraph, and the first matching check determines the block; concretely,
`"***"` becomes a `Divider` and a `"#"`-line becomes a `Heading`. -/
theorem construct_dispatch_order :
    (∀ t : List Char, lineConstruct t = firstMatchConstruct t) ∧
    parseMarkdownWithMath (str "***") = [Block.divider] ∧
    parseMarkdownWithMath (str "# x") =
      [Block.heading 1 [Seg.text (str "x")]] :=
  ⟨fun _ => rfl, rfl, rfl⟩

/-- Claim C9: the conversion terminates and is total — each iteration of the
scanner's outer loop (including the inner display-math and code-fence
lookahead loops) strictly advances the line cursor, and fuel equal to the
number of lines always suffices to run the scanner to completion. -/
theorem scanner_terminates :
    (∀ (l : List Char) (ls : List (List Char)),
        (stepScan l ls).2.length < (l :: ls).length) ∧
    (∀ xs : List (List Char), (consumeMath xs).2.length ≤ xs.length) ∧
    (∀ xs : List (List Char), (consumeCode xs).2.length ≤ xs.length) ∧
    (∀ lines : List (List Char),
        scanFuel lines.length lines = some (scanLines lines)) :=
  ⟨fun l ls => Nat.lt_succ_of_le (stepScan_rest_le l ls),
   consumeMath_rest_le, consumeCode_rest_le, scanFuel_eq_some⟩

/-- Claim C1 fails on the code: for `"**a*b*c**"` the tokenizer produces a
separate italic segment (and no bold segment at all), because the bold
pattern's content class `[^*\n]` cannot cross the inner asterisks. -/
theorem bold_overlap_counterexample :
    processTextFormatting (str "**a*b*c**") =
      [Seg.text (str "**a"), Seg.annotated (str "b") FmtKind.italic,
       Seg.text (str "c**")] ∧
    Seg.annotated (str "b") FmtKind.italic ∈
      processTextFormatting (str "**a*b*c**") :=
  ⟨rfl, by decide⟩

/-- Claim C1, amended: for `"**a*b*c**"` the bold pattern has no match at all
(its content class excludes `*`), the italic span `*b*` is the only accepted
match, and the tokenizer yields plain `"**a"`, italic `"b"`, plain `"c**"`. -/
theorem bold_overlap_amended :
    jsMatchAll (boldAt (str "**a*b*c**")) ((str "**a*b*c**").length + 1) 0 =
      [] ∧
    Rich.processRichText (str "**a*b*c**") =
      Except.ok [Seg.text (str "**a"),
        Seg.annotated (str "b") FmtKind.italic, Seg.text (str "c**")] :=
  ⟨rfl, rfl⟩

/-- Claim C2 fails on the code: a link construct with an empty url
(`"[a]()"`) or an empty content (`"[](b)"`) is not matched by the link
pattern, so no `Link` segment is emitted — the text stays plain. -/
theorem empty_link_counterexample :
    Rich.processRichText (str "[a]()") = Except.ok [Seg.text (str "[a]()")] ∧
    Rich.processRichText (str "[](b)") = Except.ok [Seg.text (str "[](b)")] :=
  ⟨rfl, rfl⟩

theorem prefixOfCh_cons {c : Char} {cs s : List Char}
    (h : prefixOfCh (c :: cs) s = true) :
    ∃ s', s = c :: s' ∧ prefixOfCh cs s' = true := by
  cases s with
  | nil => simp [prefixOfCh] at h
  | cons d ds =>
    simp only [prefixOfCh, Bool.and_eq_true, beq_iff_eq] at h
    exact ⟨ds, by rw [h.1], h.2⟩

theorem startsWith_hash_shape {t : List Char}
    (h : jsStartsWith t (str "#") = true) : ∃ r, t = '#' :: r := by
  obtain ⟨r, hr, _⟩ := prefixOfCh_cons h
  exact ⟨r, hr⟩

theorem startsWith_fence_shape {t : List Char}
    (h : jsStartsWith t (str "```") = true) :
    ∃ r, t = '`' :: '`' :: '`' :: r := by
  obtain ⟨s1, hs1, h1⟩ := prefixOfCh_cons h
  obtain ⟨s2, hs2, h2⟩ := prefixOfCh_cons h1
  obtain ⟨s3, hs3, _⟩ := prefixOfCh_cons h2
  exact ⟨s3, by rw [hs1, hs2, hs3]⟩

theorem plainLine_construct (l : List Char) (h : plainLine l = true) :
    lineConstruct (trimL l) =
      (if (trimL l).isEmpty then Construct.blank else Construct.para) := by
  simp only [plainLine, Bool.and_eq_true, Bool.not_eq_true'] at h
  obtain ⟨⟨⟨⟨⟨⟨h1, h2⟩, h3⟩, h4⟩, h5⟩, h6⟩, h7⟩ := h
  simp only [lineConstruct, h1, h2, h3, h4, h5, h6, h7]
  cases hE : (trimL l).isEmpty <;> simp

/-- Claim C3: a document consisting only of construct-marker-free lines scans
to exactly one `Paragraph` per non-blank line, in the original order (blank
lines are skipped). -/
theorem plain_paragraph_scan (lines : List (List Char))
    (h : ∀ l ∈ lines, plainLine l = true) :
    scanLines lines =
      (lines.filter (fun l => !(trimL l).isEmpty)).map
        (fun l => Block.paragraph (processRichText (trimL l))) := by
  induction lines with
  | nil => rfl
  | cons l ls ih =>
    have hl := h l (List.mem_cons_self l ls)
    have hls : ∀ x ∈ ls, plainLine x = true :=
      fun x hx => h x (List.mem_cons_of_mem l hx)
    rw [scanLines_cons]
    have hc := plainLine_construct l hl
    by_cases hE : (trimL l).isEmpty = true
    · rw [if_pos hE] at hc
      have hstep : stepScan l ls = ([], ls) := by
        unfold stepScan; dsimp only; rw [hc]
      rw [hstep]
      simp only [List.filter_cons, hE]
      simpa using ih hls
    · rw [if_neg hE] at hc
      have hstep : stepScan l ls =
          ([Block.paragraph (processRichText (trimL l))], ls) := by
        unfold stepScan; dsimp only; rw [hc]
      rw [hstep]
      simp only [List.filter_cons, Bool.not_eq_true] at *
      rw [Bool.eq_false_iff] at hE
      simp only [hE]
      simp only [Bool.not_false, if_pos]
      rw [List.map_cons]
      simpa using ih hls

/-- Witness for `plain_paragraph_scan` at a concrete document. -/
theorem plain_paragraph_scan_witness :
    scanLines [str "hello", str "", str "world"] =
      (([str "hello", str "", str "world"]).filter
          (fun l => !(trimL l).isEmpty)).map
        (fun l => Block.paragraph (processRichText (trimL l))) :=
  plain_paragraph_scan [str "hello", str "", str "world"] (by decide)

theorem length_sub_dropWhile (p : Char → Bool) (t : List Char) :
    t.length - (t.dropWhile p).length = (t.takeWhile p).length := by
  have h2 : (t.takeWhile p).length + (t.dropWhile p).length = t.length := by
    rw [← List.length_append, List.takeWhile_append_dropWhile]
  omega

theorem consumeCode_no_closer (rest : List (List Char))
    (h : ∀ x ∈ rest, jsStartsWith (trimL x) (str "```") = false) :
    consumeCode rest = (rest, []) := by
  induction rest with
  | nil => rfl
  | cons x xs ih =>
    have hx := h x (List.mem_cons_self x xs)
    simp only [consumeCode, hx]
    rw [ih (fun y hy => h y (List.mem_cons_of_mem x hy))]
    simp

/-- Claim C5: a code fence whose closer never arrives still yields a single
`Code` block whose content is all lines after the opener joined with `"\n"`
— the scanner is total and raises no error for the unterminated construct. -/
theorem unterminated_code_fence (l : List Char) (rest : List (List Char))
    (h1 : jsStartsWith (trimL l) (str "```") = true)
    (h2 : ∀ x ∈ rest, jsStartsWith (trimL x) (str "```") = false) :
    scanLines (l :: rest) = [Block.code (joinNL rest) (langSpec (trimL l))] := by
  obtain ⟨r, hr⟩ := startsWith_fence_shape h1
  have hc : lineConstruct (trimL l) = Construct.codeB := by rw [hr]; exact rfl
  rw [scanLines_cons]
  have hstep : stepScan l rest =
      ([Block.code (joinNL rest) (langSpec (trimL l))], []) := by
    unfold stepScan; dsimp only; rw [hc, consumeCode_no_closer rest h2]
    exact rfl
  rw [hstep]
  rfl

/-- Witness for `unterminated_code_fence` at a concrete document. -/
theorem unterminated_code_fence_witness :
    scanLines [str "```py", str "x = 1"] =
      [Block.code (joinNL [str "x = 1"]) (langSpec (trimL (str "```py")))] :=
  unterminated_code_fence (str "```py") [str "x = 1"] (by decide) (by decide)

/-- Claim C7: for a trimmed line starting with `'#'`, the heading level is
the count of leading `'#'` characters mapped through 1/2/3 (any count of 3 or
more gives `heading_3`), and the heading text is the line after stripping the
leading `'#'` run and the following whitespace. -/
theorem heading_level_clamp (l : List Char)
    (h : jsStartsWith (trimL l) (str "#") = true) :
    scanLines [l] =
      [Block.heading (hashClamp (hashCount (trimL l)))
        (processRichText
          (((trimL l).dropWhile (fun c => c == '#')).dropWhile isJsSpace))] ∧
    (3 ≤ hashCount (trimL l) → hashClamp (hashCount (trimL l)) = 3) := by
  constructor
  · obtain ⟨r, hr⟩ := startsWith_hash_shape h
    have hc : lineConstruct (trimL l) = Construct.heading := by
      rw [hr]; exact rfl
    rw [scanLines_cons]
    have hlv : (trimL l).length -
        ((trimL l).dropWhile (fun c => c == '#')).length =
          hashCount (trimL l) := by
      simpa [hashCount] using
        length_sub_dropWhile (fun c => c == '#') (trimL l)
    have hstep : stepScan l [] =
        ([Block.heading (hashClamp (hashCount (trimL l)))
          (processRichText
            (((trimL l).dropWhile (fun c => c == '#')).dropWhile isJsSpace))],
         []) := by
      unfold stepScan; dsimp only; rw [hc, hlv]
      exact rfl
    rw [hstep]
    rfl
  · intro h3
    unfold hashClamp
    split_ifs <;> omega

/-- Witness for `heading_level_clamp`: a four-hash heading clamps to 3. -/
theorem heading_level_clamp_witness :
    scanLines [str "#### x"] =
      [Block.heading (hashClamp (hashCount (trimL (str "#### x"))))
        (processRichText
          (((trimL (str "#### x")).dropWhile (fun c => c == '#')).dropWhile
            isJsSpace))] ∧
    (3 ≤ hashCount (trimL (str "#### x")) →
      hashClamp (hashCount (trimL (str "#### x"))) = 3) :=
  heading_level_clamp (str "#### x") (by decide)

/-- Claim C8: the `Code` block emitted for a code-fence opening line carries
as its language the remainder of the opening line after the ```` ``` ````
marker, trimmed, defaulting to `"plain text"` when that remainder is empty. -/
theorem code_fence_language (l : List Char) (ls : List (List Char))
    (h : jsStartsWith (trimL l) (str "```") = true) :
    ∃ c, (scanLines (l :: ls)).head? =
      some (Block.code c (langSpec (trimL l))) := by
  obtain ⟨r, hr⟩ := startsWith_fence_shape h
  have hc : lineConstruct (trimL l) = Construct.codeB := by rw [hr]; exact rfl
  refine ⟨joinNL (consumeCode ls).1, ?_⟩
  rw [scanLines_cons]
  have hstep : stepScan l ls =
      ([Block.code (joinNL (consumeCode ls).1) (langSpec (trimL l))],
       (consumeCode ls).2) := by
    unfold stepScan; dsimp only; rw [hc]
    exact rfl
  rw [hstep]
  rfl

/-- Witness for `code_fence_language`: a bare fence gets `"plain text"`. -/
theorem code_fence_language_witness :
    ∃ c, (scanLines [str "```"]).head? =
      some (Block.code c (langSpec (trimL (str "```")))) :=
  code_fence_language (str "```") [] (by decide)

theorem findFrom_some {mAt : Nat → Option RawMatch} :
    ∀ {f p q : Nat} {m : RawMatch},
      findFrom mAt f p = some (q, m) → mAt q = some m := by
  intro f
  induction f with
  | zero => intro p q m h; simp [findFrom] at h
  | succ f ih =>
    intro p q m h
    simp only [findFrom] at h
    cases hm : mAt p with
    | some m2 =>
      rw [hm] at h
      simp only [Option.some.injEq, Prod.mk.injEq] at h
      obtain ⟨rfl, rfl⟩ := h
      exact hm
    | none =>
      rw [hm] at h
      exact ih h

theorem jsMatchAll_mem {mAt : Nat → Option RawMatch} :
    ∀ {fuel p q : Nat} {m : RawMatch},
      (q, m) ∈ jsMatchAll mAt fuel p → mAt q = some m := by
  intro fuel
  induction fuel with
  | zero => intro p q m h; simp [jsMatchAll] at h
  | succ fuel ih =>
    intro p q m h
    simp only [jsMatchAll] at h
    cases hf : findFrom mAt (fuel + 1) p with
    | none => rw [hf] at h; simp at h
    | some pm =>
      obtain ⟨p2, m2⟩ := pm
      rw [hf] at h
      rcases List.mem_cons.mp h with h | h
      · simp only [Prod.mk.injEq] at h
        obtain ⟨rfl, rfl⟩ := h
        exact findFrom_some hf
      · exact ih h

theorem boldAt_content {s : List Char} {p : Nat} {m : RawMatch}
    (h : boldAt s p = some m) : m.content ≠ [] := by
  simp only [boldAt] at h
  split at h
  · split at h
    · rename_i hc
      injection h with h
      subst h
      exact List.length_pos.mp (Nat.lt_of_lt_of_le Nat.zero_lt_one hc.1)
    · simp at h
  · simp at h

theorem italicAt_content {s : List Char} {p : Nat} {m : RawMatch}
    (h : italicAt s p = some m) : m.content ≠ [] := by
  simp only [italicAt] at h
  split at h
  · split at h
    · rename_i hc
      injection h with h
      subst h
      exact List.length_pos.mp (Nat.lt_of_lt_of_le Nat.zero_lt_one hc.1)
    · simp at h
  · simp at h

theorem codeAt_content {s : List Char} {p : Nat} {m : RawMatch}
    (h : codeAt s p = some m) : m.content ≠ [] := by
  simp only [codeAt] at h
  split at h
  · split at h
    · rename_i hc
      injection h with h
      subst h
      exact List.length_pos.mp (Nat.lt_of_lt_of_le Nat.zero_lt_one hc.1)
    · simp at h
  · simp at h

theorem linkAt_spec {s : List Char} {p : Nat} {m : RawMatch}
    (h : linkAt s p = some m) :
    m.content ≠ [] ∧ ∃ u, m.url = some u ∧ u ≠ [] := by
  simp only [linkAt] at h
  split at h
  · split at h
    · split at h
      · rename_i hc1 hc2
        injection h with h
        subst h
        exact ⟨List.length_pos.mp (Nat.lt_of_lt_of_le Nat.zero_lt_one hc1.1),
          _, rfl, List.length_pos.mp (Nat.lt_of_lt_of_le Nat.zero_lt_one hc2.1)⟩
      · simp at h
    · simp at h
  · simp at h

theorem simpleSplitAt_shape {s : List Char} {p : Nat} {m : RawMatch}
    (h : simpleSplitAt s p = some m) :
    ∃ r, m.content = '$' :: (r ++ ['$']) := by
  simp only [simpleSplitAt] at h
  split at h
  · split at h
    · injection h with h
      subst h
      exact ⟨_, rfl⟩
    · simp at h
  · simp at h

theorem formatMatches_spec {t : List Char} {fm : FMatch}
    (h : fm ∈ formatMatches t) :
    fm.content ≠ [] ∧
      (fm.kind = FmtKind.link → ∃ u, fm.url = some u ∧ u ≠ []) := by
  simp only [formatMatches, List.mem_append, List.mem_map] at h
  rcases h with ((⟨pm, hpm, heq⟩ | ⟨pm, hpm, heq⟩) | ⟨pm, hpm, heq⟩) |
    ⟨pm, hpm, heq⟩ <;>
    obtain ⟨q, m⟩ := pm <;> subst heq <;>
    have hm := jsMatchAll_mem hpm
  · exact ⟨boldAt_content hm, fun hk => by simp at hk⟩
  · exact ⟨italicAt_content hm, fun hk => by simp at hk⟩
  · exact ⟨codeAt_content hm, fun hk => by simp at hk⟩
  · exact ⟨(linkAt_spec hm).1, fun _ => (linkAt_spec hm).2⟩

theorem mem_insertByStart {m x : FMatch} {l : List FMatch}
    (h : x ∈ insertByStart m l) : x = m ∨ x ∈ l := by
  induction l with
  | nil =>
    simp only [insertByStart, List.mem_singleton] at h
    exact Or.inl h
  | cons y ys ih =>
    simp only [insertByStart] at h
    split at h
    · rcases List.mem_cons.mp h with h | h
      · exact Or.inl h
      · exact Or.inr h
    · rcases List.mem_cons.mp h with h | h
      · exact Or.inr (by simp [h])
      · rcases ih h with h | h
        · exact Or.inl h
        · exact Or.inr (List.mem_cons_of_mem _ h)

theorem mem_sortByStart {x : FMatch} {l : List FMatch}
    (h : x ∈ sortByStart l) : x ∈ l := by
  induction l with
  | nil => simp [sortByStart] at h
  | cons y ys ih =>
    simp only [sortByStart] at h
    rcases mem_insertByStart h with h | h
    · simp [h]
    · exact List.mem_cons_of_mem _ (ih h)

theorem mem_acceptGo {x : FMatch} : ∀ {l acc : List FMatch},
    x ∈ acceptGo acc l → x ∈ acc ∨ x ∈ l := by
  intro l
  induction l with
  | nil => intro acc h; exact Or.inl (by simpa [acceptGo] using h)
  | cons m rest ih =>
    intro acc h
    simp only [acceptGo] at h
    split at h
    · rcases ih h with h | h
      · exact Or.inl h
      · exact Or.inr (List.mem_cons_of_mem _ h)
    · rcases ih h with h | h
      · rcases List.mem_append.mp h with h | h
        · exact Or.inl h
        · simp only [List.mem_singleton] at h
          exact Or.inr (by simp [h])
      · exact Or.inr (List.mem_cons_of_mem _ h)

theorem buildSegs_spec {t : List Char} : ∀ {ms : List FMatch} {le : Nat}
    {sg : Seg},
    (∀ fm ∈ ms, fm.content ≠ [] ∧
      (fm.kind = FmtKind.link → ∃ u, fm.url = some u ∧ u ≠ [])) →
    sg ∈ buildSegs t ms le →
    segNonEmpty sg ∧ (∀ c u, sg = Seg.linkSeg c u → u ≠ []) := by
  intro ms
  induction ms with
  | nil =>
    intro le sg _ h
    simp only [buildSegs] at h
    split at h
    · split at h
      · rename_i hr
        simp only [List.mem_singleton] at h
        subst h
        exact ⟨hr, fun c u hcu => by simp at hcu⟩
      · simp at h
    · simp at h
  | cons m rest ih =>
    intro le sg hms h
    have hm := hms m (List.mem_cons_self m rest)
    have hrest : ∀ fm ∈ rest, fm.content ≠ [] ∧
        (fm.kind = FmtKind.link → ∃ u, fm.url = some u ∧ u ≠ []) :=
      fun fm hfm => hms fm (List.mem_cons_of_mem m hfm)
    simp only [buildSegs, List.mem_append, List.mem_cons] at h
    rcases h with h | h | h
    · split at h
      · split at h
        · rename_i hb
          simp only [List.mem_singleton] at h
          subst h
          exact ⟨hb, fun c u hcu => by simp at hcu⟩
        · simp at h
      · simp at h
    · subst h
      cases hk : m.kind with
      | link =>
        obtain ⟨u, hu, hune⟩ := hm.2 hk
        simp only [hk]
        refine ⟨hm.1, fun c u' hcu => ?_⟩
        simp only [Seg.linkSeg.injEq] at hcu
        rw [← hcu.2, hu]
        simpa [Option.getD] using hune
      | bold =>
        simp only [hk]
        exact ⟨hm.1, fun c u hcu => by simp at hcu⟩
      | italic =>
        simp only [hk]
        exact ⟨hm.1, fun c u hcu => by simp at hcu⟩
      | codeK =>
        simp only [hk]
        exact ⟨hm.1, fun c u hcu => by simp at hcu⟩
    · exact ih hrest h

theorem processTextFormatting_spec {t : List Char} {sg : Seg}
    (h : sg ∈ processTextFormatting t) :
    segNonEmpty sg ∧ (∀ c u, sg = Seg.linkSeg c u → u ≠ []) := by
  simp only [processTextFormatting] at h
  split at h
  · rename_i hcond
    simp only [List.mem_singleton] at h
    subst h
    refine ⟨fun ht => ?_, fun c u hcu => by simp at hcu⟩
    rw [ht] at hcond
    exact hcond.2 rfl
  · refine buildSegs_spec (fun fm hfm => ?_) h
    rcases mem_acceptGo hfm with hf | hf
    · simp at hf
    · exact formatMatches_spec (mem_sortByStart hf)

/-- Claim C2, amended: the link pattern requires at least one character in
both its content and url groups, so every `Link` segment the formatting pass
emits has non-empty content and non-empty url (and a construct with an empty
part emits no `Link` segment at all — see `empty_link_counterexample`). -/
theorem link_segments_nonempty :
    ∀ (t : List Char) (sg : Seg), sg ∈ processTextFormatting t →
      ∀ c u, sg = Seg.linkSeg c u → c ≠ [] ∧ u ≠ [] := by
  intro t sg h c u hsg
  obtain ⟨h1, h2⟩ := processTextFormatting_spec h
  subst hsg
  exact ⟨h1, h2 c u rfl⟩

/-- Witness for `link_segments_nonempty` at the concrete line `"[a](b)"`. -/
theorem link_segments_nonempty_witness :
    str "a" ≠ [] ∧ str "b" ≠ [] :=
  link_segments_nonempty (str "[a](b)") (Seg.linkSeg (str "a") (str "b"))
    (by decide) (str "a") (str "b") rfl

theorem restoreSegs_ok {phs : List (List Char)} {ann : Option FmtKind} :
    ∀ {xs : List (List Char)} {out : List Seg},
      restoreSegs phs ann xs = Except.ok out → ∀ s ∈ out, segNonEmpty s := by
  intro xs
  induction xs with
  | nil =>
    intro out h s hs
    simp only [restoreSegs] at h
    injection h with h
    subst h
    simp at hs
  | cons seg rest ih =>
    intro out h s hs
    simp only [restoreSegs] at h
    split at h
    · split at h
      · simp at h
      · rename_i ds hd
        split at h
        · simp at h
        · rename_i tl hr
          split at h
          · rename_i ex hg
            split at h
            · rename_i hex
              injection h with h
              subst h
              rcases List.mem_cons.mp hs with hs | hs
              · subst hs; exact hex
              · exact ih hr s hs
            · injection h with h; subst h; exact ih hr s hs
          · injection h with h; subst h; exact ih hr s hs
    · split at h
      · rename_i hne
        split at h
        · simp at h
        · rename_i tl hr
          injection h with h
          subst h
          rcases List.mem_cons.mp hs with hs | hs
          · subst hs
            cases ann with
            | some k => exact hne
            | none => exact hne
          · exact ih hr s hs
      · exact ih h s hs

theorem restorePart_ok {phs : List (List Char)} {part : Seg} {out : List Seg}
    (hp : segNonEmpty part) (h : restorePart phs part = Except.ok out) :
    ∀ s ∈ out, segNonEmpty s := by
  intro s hs
  cases part with
  | equationSeg e =>
    simp only [restorePart] at h
    injection h with h; subst h
    simp only [List.mem_singleton] at hs
    subst hs; exact hp
  | text c =>
    simp only [restorePart] at h
    split at h
    · exact restoreSegs_ok h s hs
    · injection h with h; subst h
      simp only [List.mem_singleton] at hs
      subst hs; exact hp
  | annotated c k =>
    simp only [restorePart] at h
    split at h
    · exact restoreSegs_ok h s hs
    · injection h with h; subst h
      simp only [List.mem_singleton] at hs
      subst hs; exact hp
  | linkSeg c u =>
    simp only [restorePart] at h
    split at h
    · exact restoreSegs_ok h s hs
    · injection h with h; subst h
      simp only [List.mem_singleton] at hs
      subst hs; exact hp

theorem restoreAll_ok {phs : List (List Char)} :
    ∀ {parts out : List Seg},
      (∀ p ∈ parts, segNonEmpty p) →
      restoreAll phs parts = Except.ok out → ∀ s ∈ out, segNonEmpty s := by
  intro parts
  induction parts with
  | nil =>
    intro out _ h s hs
    simp only [restoreAll] at h
    injection h with h; subst h
    simp at hs
  | cons p ps ih =>
    intro out hps h s hs
    simp only [restoreAll] at h
    cases ha : restorePart phs p with
    | error er => rw [ha] at h; simp at h
    | ok a =>
      rw [ha] at h
      cases hb : restoreAll phs ps with
      | error er => rw [hb] at h; simp at h
      | ok b =>
        rw [hb] at h
        injection h with h; subst h
        rcases List.mem_append.mp hs with hs | hs
        · exact restorePart_ok (hps p (List.mem_cons_self p ps)) ha s hs
        · exact ih (fun q hq => hps q (List.mem_cons_of_mem p hq)) hb s hs

theorem jsStartsWith_dollar (r : List Char) :
    jsStartsWith ('$' :: (r ++ ['$'])) (str "$") = true := rfl

theorem jsEndsWith_dollar (r : List Char) :
    jsEndsWith ('$' :: (r ++ ['$'])) (str "$") = true := by
  simp [jsEndsWith, str, List.reverse_cons, List.reverse_append, prefixOfCh]

theorem simpleLoop_cons₂ (a b : List Char) (rest : List (List Char)) :
    simpleLoop (a :: b :: rest) true =
      (if a ≠ [] then [Seg.text a] else []) ++
      ((if jsStartsWith b (str "$") = true ∧ jsEndsWith b (str "$") = true then
          (let expr := trimL (b.drop 1).dropLast
           if expr ≠ [] then [Seg.equationSeg expr] else [])
        else [Seg.text b]) ++ simpleLoop rest true) := rfl

theorem simpleLoop_nonempty {t : List Char} :
    ∀ {ms : List (Nat × RawMatch)},
      (∀ pm ∈ ms, ∃ r, (Prod.snd pm).content = '$' :: (r ++ ['$'])) →
      ∀ {le : Nat} {s : Seg},
        s ∈ simpleLoop (piecesFrom t le ms) true → segNonEmpty s := by
  intro ms
  induction ms with
  | nil =>
    intro _ le s hs
    simp only [piecesFrom] at hs
    rw [show simpleLoop [t.drop le] true =
        (if t.drop le ≠ [] then [Seg.text (t.drop le)] else []) by
      simp [simpleLoop]] at hs
    split at hs
    · rename_i hne
      simp only [List.mem_singleton] at hs
      subst hs; exact hne
    · simp at hs
  | cons pm rest ih =>
    intro hms le s hs
    obtain ⟨q, m⟩ := pm
    obtain ⟨r, hr⟩ := hms (q, m) (List.mem_cons_self _ _)
    have hrest : ∀ pm ∈ rest, ∃ r, (Prod.snd pm).content = '$' :: (r ++ ['$']) :=
      fun x hx => hms x (List.mem_cons_of_mem _ hx)
    simp only [piecesFrom] at hs
    rw [simpleLoop_cons₂] at hs
    rcases List.mem_append.mp hs with hs | hs
    · split at hs
      · rename_i hne
        simp only [List.mem_singleton] at hs
        subst hs; exact hne
      · simp at hs
    · rcases List.mem_append.mp hs with hs | hs
      · rw [hr] at hs
        rw [if_pos ⟨jsStartsWith_dollar r, jsEndsWith_dollar r⟩] at hs
        dsimp only at hs
        split at hs
        · rename_i hex
          simp only [List.mem_singleton] at hs
          subst hs; exact hex
        · simp at hs
      · exact ih hrest hs

/-- Claim C10: every rich-text segment either inline tokenizer returns is
non-empty — each text-bearing segment has non-empty content and each equation
segment a non-empty expression (empty fragments and empty math expressions
are filtered out before emission).  For the rich variant the conclusion is
stated for every run that returns normally. -/
theorem segments_nonempty :
    (∀ (t : List Char) (s : Seg), s ∈ processRichText t → segNonEmpty s) ∧
    (∀ (t : List Char) (out : List Seg),
      Rich.processRichText t = Except.ok out → ∀ s ∈ out, segNonEmpty s) := by
  constructor
  · intro t s hs
    refine simpleLoop_nonempty (fun pm hpm => ?_) hs
    obtain ⟨q, m⟩ := pm
    exact simpleSplitAt_shape (jsMatchAll_mem hpm)
  · intro t out h s hs
    simp only [Rich.processRichText] at h
    exact restoreAll_ok
      (fun p hp => (processTextFormatting_spec hp).1) h s hs

/-- Witness for `segments_nonempty` at concrete inputs exercising both
tokenizers: a plain-plus-math line for the simple one and a protected inline
equation for the rich one. -/
theorem segments_nonempty_witness :
    segNonEmpty (Seg.text (str "a ")) ∧ segNonEmpty (Seg.equationSeg (str "x")) :=
  ⟨segments_nonempty.1 (str "a $x$") (Seg.text (str "a ")) (by decide),
   segments_nonempty.2 (str "$x$") [Seg.equationSeg (str "x")] rfl
     (Seg.equationSeg (str "x")) (by decide)⟩
